import Mathlib

/- Verification of the subtitle acquisition pipeline of subs.py.
   Subtitle text is modelled as lists of ASCII characters; filesystem and
   subprocess effects are modelled by explicit oracle arguments, and the
   numbers paired with results count the external calls a code path makes. -/

namespace Subs

/-- Character list of a string literal. -/
def chars (s : String) : List Char := s.data

/-- ASCII model of Python whitespace: the characters matched by the regex
class for whitespace and stripped by str.strip. -/
def pyIsSpace (c : Char) : Bool :=
  c == ' ' || c == '\t' || c == '\n' || c == '\r' || c == '\x0b' || c == '\x0c'

/-- Python str.strip: remove leading and trailing whitespace. -/
def pyStrip (l : List Char) : List Char :=
  ((l.dropWhile pyIsSpace).reverse.dropWhile pyIsSpace).reverse

/-- Python str.split on a newline: no merging of adjacent separators,
the empty string yields one empty piece. -/
def pySplitNl : List Char → List (List Char)
  | [] => [[]]
  | c :: cs =>
    if c == '\n' then [] :: pySplitNl cs
    else
      match pySplitNl cs with
      | [] => [[c]]
      | l :: ls => (c :: l) :: ls

/-- Python sep.join applied to a list of strings. -/
def pyJoin (sep : List Char) : List (List Char) → List Char
  | [] => []
  | [x] => x
  | x :: y :: t => x ++ sep ++ pyJoin sep (y :: t)

/-- Python str.lower, ASCII model. -/
def pyLower (l : List Char) : List Char := l.map Char.toLower

/-- Characters allowed after the first letter of a speaker label: the regex
class of uppercase letters, whitespace and periods. -/
def labelChar (c : Char) : Bool := c.isUpper || pyIsSpace c || c == '.'

/-- The first cleaning rule of clean_subtitle_text, line 41 of subs.py:
re.sub of one uppercase letter, then one or more label-class characters,
then a colon, anchored (without MULTILINE) at the start of the whole text.
Since a colon is not in the class, the greedy match is the maximal class run
followed directly by a colon. -/
def sub_speaker (t : List Char) : List Char :=
  match t with
  | [] => []
  | c :: rest =>
    if c.isUpper then
      let run := rest.takeWhile labelChar
      if run.isEmpty then t
      else
        match rest.drop run.length with
        | ':' :: r => r
        | _ => t
    else t

/-- The suffix after the first occurrence of the closing character, if any. -/
def afterClose (cl : Char) : List Char → Option (List Char)
  | [] => none
  | c :: cs => if c == cl then some cs else afterClose cl cs

theorem afterClose_length {cl : Char} :
    ∀ {l r : List Char}, afterClose cl l = some r → r.length < l.length := by
  intro l
  induction l with
  | nil => intro r h; simp [afterClose] at h
  | cons c cs ih =>
    intro r h
    simp only [afterClose] at h
    by_cases hc : c == cl
    · simp [hc] at h
      subst h
      exact Nat.lt_succ_self _
    · simp [hc] at h
      exact Nat.lt_succ_of_lt (ih h)

/-- Fuel-driven worker for span removal, structurally recursive so that the
kernel can evaluate it on concrete inputs. With fuel at least the length of
the list it implements re.sub of an opening character, a run of
non-closing characters and a closing character, replaced by the empty
string, scanning left to right. -/
def sub_spanF (op cl : Char) : Nat → List Char → List Char
  | 0, l => l
  | _ + 1, [] => []
  | f + 1, x :: xs =>
    if x == op then
      match afterClose cl xs with
      | some r => sub_spanF op cl f r
      | none => x :: sub_spanF op cl f xs
    else x :: sub_spanF op cl f xs

/-- Removal of spans delimited by op and cl, as in lines 44 to 53 of
subs.py: each match runs from an opening character to the first closing
character after it; an opening character with no later closing character is
kept. -/
def sub_span (op cl : Char) (l : List Char) : List Char :=
  sub_spanF op cl l.length l

/-- The all-uppercase line test of lines 58 to 60 of subs.py: the stripped
line is nonempty, equals its uppercase image, and the line contains at least
one letter. Such lines are dropped. -/
def upperDrop (line : List Char) : Bool :=
  let s := pyStrip line
  !s.isEmpty && s == s.map Char.toUpper && line.any Char.isAlpha

/-- The cleaning pipeline after the speaker-label rule: span removals in the
order parentheses, brackets, angle brackets, braces; then the
all-uppercase line filter; then a final strip. -/
def clean_after_label (t : List Char) : List Char :=
  let t1 := sub_span '(' ')' t
  let t2 := sub_span '[' ']' t1
  let t3 := sub_span '<' '>' t2
  let t4 := sub_span '{' '}' t3
  pyStrip (pyJoin (chars "\n") ((pySplitNl t4).filter (fun l => !upperDrop l)))

/-- clean_subtitle_text of subs.py, lines 38 to 66. -/
def clean_subtitle_text (t : List Char) : List Char :=
  clean_after_label (sub_speaker t)

/-- One iteration of the block loop of translate_subtitle_file (lines 344
to 366) and process_dutch_subtitles (lines 511 to 529): strip the block,
split into lines, skip blocks of fewer than 3 lines, optionally clean the
body and skip blocks whose cleaned body strips to empty, then rebuild
index, timestamp and (translated) body. tf is the translate_function
applied to the body (the identity in process_dutch_subtitles). -/
def processBlock (tf : List Char → List Char) (clean_hi : Bool) (b : List Char) :
    Option (List Char) :=
  match pySplitNl (pyStrip b) with
  | i :: ts :: r0 :: rest =>
    let text := pyJoin (chars "\n") (r0 :: rest)
    let text2 := if clean_hi then clean_subtitle_text text else text
    if clean_hi && (pyStrip text2).isEmpty then none
    else some (i ++ '\n' :: (ts ++ '\n' :: tf text2))
  | _ => none

/-- The text body of a block as the loop computes it: the lines after the
index and timestamp, joined by newlines. -/
def blockBody (b : List Char) : List Char :=
  pyJoin (chars "\n") ((pySplitNl (pyStrip b)).drop 2)

/-- The longest match of the regex for one whitespace run ending in a
newline, applied after an initial newline: some remainder when a further
newline lies in the whitespace prefix (greedily the last one), none
otherwise. -/
def blankTail : List Char → Option (List Char)
  | [] => none
  | c :: cs =>
    if pyIsSpace c then
      match blankTail cs with
      | some r => some r
      | none => if c == '\n' then some cs else none
    else none

theorem blankTail_length :
    ∀ {l r : List Char}, blankTail l = some r → r.length < l.length := by
  intro l
  induction l with
  | nil => intro r h; simp [blankTail] at h
  | cons c cs ih =>
    intro r h
    simp only [blankTail] at h
    by_cases hc : pyIsSpace c
    · simp [hc] at h
      cases hbt : blankTail cs with
      | some r2 =>
        rw [hbt] at h
        simp at h
        subst h
        exact Nat.lt_succ_of_lt (ih hbt)
      | none =>
        rw [hbt] at h
        simp at h
        rw [h.2]
        exact Nat.lt_succ_self _
    · simp [hc] at h

/-- Worker for re.split on blank lines (a newline, optional whitespace, a
newline), scanning left to right with greedy matches, as used on lines 273
and 507 of subs.py. -/
def reSplitGo (acc : List Char) : List Char → List (List Char)
  | [] => [acc.reverse]
  | c :: cs =>
    if c == '\n' then
      match h : blankTail cs with
      | some r => acc.reverse :: reSplitGo [] r
      | none => reSplitGo (c :: acc) cs
    else reSplitGo (c :: acc) cs
termination_by l => l.length
decreasing_by
  · exact Nat.lt_succ_of_lt (blankTail_length h)
  · exact Nat.lt_succ_self _
  · exact Nat.lt_succ_self _

/-- re.split on blank-line boundaries. -/
def reSplitBlank (l : List Char) : List (List Char) := reSplitGo [] l

/-- The parsing scaffold of translate_subtitle_file: strip the document,
split into blocks at blank lines, and keep each block that has at least 3
lines, re-assembled from its stripped lines (no cleaning, no
translation). -/
def parseSrt (content : List Char) : List (List Char) :=
  (reSplitBlank (pyStrip content)).filterMap (processBlock (fun t => t) false)

/-- The serialization of lines 370 and 533 of subs.py: blocks joined by one
blank line. -/
def serializeSrt (blocks : List (List Char)) : List Char :=
  pyJoin (chars "\n\n") blocks

/-- The whole content transformation of translate_subtitle_file: parse,
per-block processing, serialization. -/
def translate_subtitle_content (tf : List Char → List Char) (clean_hi : Bool)
    (content : List Char) : List Char :=
  pyJoin (chars "\n\n") ((reSplitBlank (pyStrip content)).filterMap (processBlock tf clean_hi))

/-- The observable outcome of one LibreTranslate HTTP request: the post call
raised, or a response with a status code and a body that either fails to
parse as JSON (none) or is a JSON object modelled as an association
list. -/
inductive LibreResp where
  | raiseExc : LibreResp
  | resp : Nat → Option (List (List Char × List Char)) → LibreResp

/-- First-match lookup in a JSON object. -/
def lookupKey (k : List Char) : List (List Char × List Char) → Option (List Char)
  | [] => none
  | (k2, v) :: t => if k2 == k then some v else lookupKey k t

/-- libre_translate of subs.py, lines 285 to 309. The result is paired with
the number of HTTP requests issued. Empty or whitespace-only text returns
unchanged with no request; otherwise one request is made and any failure
(exception, non-200 status, unparsable body, missing translatedText field)
returns the original text. -/
def libre_translate (r : LibreResp) (text : List Char) : List Char × Nat :=
  if text.isEmpty || (pyStrip text).isEmpty then (text, 0)
  else
    match r with
    | LibreResp.raiseExc => (text, 1)
    | LibreResp.resp status body =>
      if status == 200 then
        match body with
        | none => (text, 1)
        | some d =>
          match lookupKey (chars "translatedText") d with
          | some v => (v, 1)
          | none => (text, 1)
      else (text, 1)

/-- The chunking of google_translate, line 325 of subs.py: pieces of the
text at offsets 0, 5000, 10000, ... -/
def chunks5000 (l : List Char) : List (List Char) :=
  if h : l.length ≤ 5000 then [l]
  else l.take 5000 :: chunks5000 (l.drop 5000)
termination_by l.length
decreasing_by
  simp only [List.length_drop]
  omega

/-- The chunk loop of google_translate, lines 327 to 329: translate chunks
in order, stopping at the first chunk whose translation raises; the
exception escapes the loop. The number of translation calls made is
returned alongside. -/
def trAll (tr : List Char → Option (List Char)) :
    List (List Char) → Option (List (List Char)) × Nat
  | [] => (some [], 0)
  | c :: cs =>
    match tr c with
    | none => (none, 1)
    | some t =>
      let r := trAll tr cs
      (r.1.map (fun ts => t :: ts), r.2 + 1)

/-- google_translate of subs.py, lines 318 to 335, with the translation
library call modelled as an oracle that either returns a translation or
raises (none). The try wraps the whole chunk loop, so one raising chunk
makes the function return the entire original text. The result is paired
with the number of library calls made. -/
def google_translate (tr : List Char → Option (List Char)) (text : List Char) :
    List Char × Nat :=
  if text.isEmpty || (pyStrip text).isEmpty then (text, 0)
  else if 5000 < text.length then
    match trAll tr (chunks5000 text) with
    | (some ts, n) => (pyJoin (chars " ") ts, n)
    | (none, n) => (text, n)
  else
    match tr text with
    | some t => (t, 1)
    | none => (text, 1)

/-- Index just past the last slash of the path, or 0 when there is none. -/
def posixSplitRaw (p : List Char) : List Char × List Char :=
  let tailRev := p.reverse.takeWhile (fun c => c != '/')
  (p.take (p.length - tailRev.length), tailRev.reverse)

/-- os.path.basename for POSIX paths: everything after the last slash. -/
def os_path_basename (p : List Char) : List Char := (posixSplitRaw p).2

/-- os.path.dirname for POSIX paths: everything before the last slash, with
trailing slashes stripped unless the head is all slashes. -/
def os_path_dirname (p : List Char) : List Char :=
  let h := (posixSplitRaw p).1
  if !h.isEmpty && !(h.all (fun c => c == '/')) then
    (h.reverse.dropWhile (fun c => c == '/')).reverse
  else h

/-- Index of the last occurrence of a character, if any. -/
def rfindIdx (c : Char) (l : List Char) : Option Nat :=
  match l.reverse.findIdx? (fun x => x == c) with
  | some j => some (l.length - 1 - j)
  | none => none

/-- os.path.splitext for POSIX paths: split at the last dot when it lies
after the last slash and the basename does not consist solely of leading
dots up to it. -/
def os_path_splitext (p : List Char) : List Char × List Char :=
  let sepIdx : Int := match rfindIdx '/' p with | some i => (i : Int) | none => -1
  let dotIdx : Int := match rfindIdx '.' p with | some i => (i : Int) | none => -1
  if sepIdx < dotIdx then
    let nameStart := (sepIdx + 1).toNat
    let d := dotIdx.toNat
    if ((p.drop nameStart).take (d - nameStart)).any (fun c => c != '.') then
      (p.take d, p.drop d)
    else (p, [])
  else (p, [])

/-- os.path.join for POSIX paths, two arguments. -/
def os_path_join2 (a b : List Char) : List Char :=
  if b.head? == some '/' then b
  else if a.isEmpty || a.getLast? == some '/' then a ++ b
  else a ++ '/' :: b

/-- check_existing_nl_subtitle of subs.py, lines 24 to 36: with the force
flag the check always reports absent; otherwise it queries the filesystem
(modelled by the fsExists oracle) for the sibling .nl.srt path. -/
def check_existing_nl_subtitle (fsExists : List Char → Bool) (video_file : List Char)
    (force : Bool) : Bool :=
  if force then false
  else
    let base_dir := os_path_dirname video_file
    let stem := (os_path_splitext (os_path_basename video_file)).1
    let nl_srt_path := os_path_join2 base_dir (stem ++ chars ".nl.srt")
    fsExists nl_srt_path

/-- The sibling Dutch subtitle path used by the existing-file check. -/
def nlSrtPath (video_file : List Char) : List Char :=
  os_path_join2 (os_path_dirname video_file)
    ((os_path_splitext (os_path_basename video_file)).1 ++ chars ".nl.srt")

/-- Terminal per-file outcomes of the orchestrator. -/
inductive Outcome where
  | alreadySatisfied : Outcome
  | dutchUsed : Outcome
  | translatedOut : Outcome
  | extractFailed : Outcome
deriving DecidableEq

/-- The per-file gate of main, lines 680 to 682 (and 574 to 576): when the
existing-file check fires the file is skipped with no tool invocation;
otherwise the rest of the pipeline runs (its outcome and tool-invocation
count are abstracted as the downstream argument). -/
def mainFileStep (fsExists : List Char → Bool) (force : Bool) (vf : List Char)
    (downstream : Outcome × Nat) : Outcome × Nat :=
  if check_existing_nl_subtitle fsExists vf force then (Outcome.alreadySatisfied, 0)
  else downstream

/-- One probed subtitle stream as read from the ffprobe JSON:
tags.language (empty when absent), the optional index field, and the
optional codec_name. -/
structure StreamRec where
  language : List Char
  idx : Option Nat
  codec : Option (List Char)
deriving DecidableEq

/-- The external world of the extraction functions. probe is the ffprobe
call: none models a timeout, some gives its stdout. parsed is json.loads of
that stdout (none models a JSONDecodeError). The remaining oracles are
indexed by the number of ffmpeg invocations made so far: raises tells
whether the n-th invocation raises (a timeout), fexists and fsize give the
state of the output file right after it, and exitCode its exit status
(which the code never consults). -/
structure ToolEnv where
  probe : Option (List Char)
  parsed : Option (List StreamRec)
  raises : Nat → Bool
  fexists : Nat → Bool
  fsize : Nat → Nat
  exitCode : Nat → Nat

/-- The output-validity check run after an ffmpeg invocation: the output
path exists and has non-zero size. -/
def okFile (env : ToolEnv) (n : Nat) : Bool := env.fexists n && (env.fsize n != 0)

/-- Is the first list a prefix of the second. -/
def listIsPref : List Char → List Char → Bool
  | [], _ => true
  | _ :: _, [] => false
  | a :: as, b :: bs => a == b && listIsPref as bs

/-- Python substring containment: needle in hay. -/
def strContains : List Char → List Char → Bool
  | [], needle => listIsPref needle []
  | c :: t, needle => listIsPref needle (c :: t) || strContains t needle

/-- The Dutch language identifiers of line 84 of subs.py. -/
def dutch_identifiers : List (List Char) :=
  [chars "nld", chars "dut", chars "nl", chars "dutch", chars "nederlands"]

/-- A stream selector passed to ffmpeg via -map. -/
inductive Sel where
  | byLang : List Char → Sel
  | byIndex : Nat → Sel
  | firstStream : Sel
  | allStreams : Sel
  | defaultSel : Sel
deriving DecidableEq

/-- The ordered language-tag map options of lines 91 to 97 of subs.py. -/
def dutch_maps : List Sel := dutch_identifiers.map Sel.byLang

/-- Line 85 of subs.py: any Dutch identifier occurs as a substring of the
lowercased probe stdout. -/
def has_dutch (out : List Char) : Bool :=
  dutch_identifiers.any (fun d => strContains (pyLower out) d)

/-- Exact membership of a lowercased language tag in the identifier list
(line 116 of subs.py). -/
def memIds (s : List Char) : Bool := dutch_identifiers.any (fun d => d == s)

/-- The loop over dutch_maps, lines 99 to 109: run ffmpeg for each map
option in order; an attempt that raises is skipped, an attempt after which
the output file exists non-empty returns. Results: whether extraction
succeeded, the next invocation number, and the list of selectors
attempted. -/
def tryMaps (env : ToolEnv) : Nat → List Sel → Bool × Nat × List Sel
  | n, [] => (false, n, [])
  | n, m :: ms =>
    if env.raises n then
      let r := tryMaps env (n + 1) ms
      (r.1, r.2.1, m :: r.2.2)
    else if okFile env n then (true, n + 1, [m])
    else
      let r := tryMaps env (n + 1) ms
      (r.1, r.2.1, m :: r.2.2)

/-- The stream scan of lines 114 to 124: for each probed stream whose
language tag is a Dutch identifier, map its index and check the output. An
exception here is not caught by the surrounding JSONDecodeError handler, so
it aborts the whole function (first Bool false, no further attempts). -/
def scanStreams (env : ToolEnv) : Nat → Nat → List StreamRec → Bool × Nat × List Sel
  | n, _, [] => (false, n, [])
  | n, i, s :: ss =>
    if memIds (pyLower s.language) then
      let sel := Sel.byIndex (s.idx.getD i)
      if env.raises n then (false, n + 1, [sel])
      else if okFile env n then (true, n + 1, [sel])
      else
        let r := scanStreams env (n + 1) (i + 1) ss
        (r.1, r.2.1, sel :: r.2.2)
    else scanStreams env n (i + 1) ss

/-- The selectors the stream scan attempts when no attempt succeeds or
raises: the Dutch-tagged streams in probe order, each mapped by its index
field (or its position when the field is absent). -/
def scanSels : Nat → List StreamRec → List Sel
  | _, [] => []
  | i, s :: ss =>
    if memIds (pyLower s.language) then
      Sel.byIndex (s.idx.getD i) :: scanSels (i + 1) ss
    else scanSels (i + 1) ss

/-- check_and_extract_dutch_subtitles of subs.py, lines 68 to 140. A probe
timeout returns none immediately. When a Dutch identifier occurs in the
probe stdout, the five language-tag maps are tried in order, then (when the
stdout parses as JSON) the Dutch-tagged streams by index. The second
component records the selectors attempted in order. -/
def check_and_extract_dutch_subtitles (video_file output_dir : List Char)
    (env : ToolEnv) : Option (List Char) × List Sel :=
  let stem := (os_path_splitext (os_path_basename video_file)).1
  let output_srt := os_path_join2 output_dir (stem ++ chars ".nl.srt")
  match env.probe with
  | none => (none, [])
  | some out =>
    if has_dutch out then
      let r1 := tryMaps env 0 dutch_maps
      if r1.1 then (some output_srt, r1.2.2)
      else
        match env.parsed with
        | none => (none, r1.2.2)
        | some streams =>
          let r2 := scanStreams env r1.2.1 0 streams
          (if r2.1 then some output_srt else none, r1.2.2 ++ r2.2.2)
    else (none, [])

/-- The stream index chosen for the ASS extraction attempt, lines 163 to
172 of subs.py: the first stream whose codec_name is ass, by its index
field (or position), defaulting to 0. -/
def findAssIdx : Nat → List StreamRec → Nat
  | _, [] => 0
  | i, s :: ss =>
    if s.codec == some (chars "ass") then s.idx.getD i else findAssIdx (i + 1) ss

/-- extract_subtitles of subs.py, lines 142 to 254. A probe timeout
replaces the probe result with an empty stdout and skips the ASS branch;
then the chain tries, in order: the ASS stream by index (when the stdout
mentions ass), the English language map (when the stdout mentions eng or
english), the first subtitle stream, the generic subtitle map, and a final
attempt with no stream selection. Each attempt may raise (skipped) and
succeeds only when the output file exists non-empty afterwards. The second
component records the selectors attempted in order. -/
def extract_subtitles (video_file output_dir : List Char) (env : ToolEnv) :
    Option (List Char) × List Sel :=
  let stem := (os_path_splitext (os_path_basename video_file)).1
  let output_srt := os_path_join2 output_dir (stem ++ chars ".eng.srt")
  let stdoutR : List Char := match env.probe with | none => [] | some s => s
  let assIdx : Nat := match env.parsed with | none => 0 | some streams => findAssIdx 0 streams
  let assTried : Bool := env.probe.isSome && strContains (pyLower stdoutR) (chars "ass")
  let t1 : List Sel := if assTried then [Sel.byIndex assIdx] else []
  if assTried && !env.raises 0 && okFile env 0 then (some output_srt, t1)
  else
    let n1 : Nat := if assTried then 1 else 0
    let engTried : Bool :=
      strContains (pyLower stdoutR) (chars "eng") ||
      strContains (pyLower stdoutR) (chars "english")
    let t2 : List Sel := t1 ++ (if engTried then [Sel.byLang (chars "eng")] else [])
    if engTried && !env.raises n1 && okFile env n1 then (some output_srt, t2)
    else
      let n2 : Nat := if engTried then n1 + 1 else n1
      let t3 := t2 ++ [Sel.firstStream]
      if !env.raises n2 && okFile env n2 then (some output_srt, t3)
      else
        let t4 := t3 ++ [Sel.allStreams]
        if !env.raises (n2 + 1) && okFile env (n2 + 1) then (some output_srt, t4)
        else
          let t5 := t4 ++ [Sel.defaultSel]
          if !env.raises (n2 + 2) && okFile env (n2 + 2) then (some output_srt, t5)
          else (none, t5)

/-- Whether the text contains a blank-line separator match: a newline
followed by optional whitespace and another newline. -/
def hasBlank : List Char → Bool
  | [] => false
  | c :: cs => (c == '\n' && (blankTail cs).isSome) || hasBlank cs

/-- The shape of blocks produced by parsing: stripped, nonempty, free of
blank-line separators, and at least 3 lines long. -/
def GoodBlock (b : List Char) : Prop :=
  pyStrip b = b ∧ b ≠ [] ∧ hasBlank b = false ∧ 3 ≤ (pySplitNl b).length

/-- Invariant of the splitting scan: every newline already accumulated in
the current piece sees no blank-line match in the rest of its piece plus
the remaining input. -/
def Jinv (acc rem : List Char) : Prop :=
  ∀ u w, acc.reverse = u ++ '\n' :: w → blankTail (w ++ rem) = none

/- Lemmas about stripping. -/

theorem dropWhile_eq_self_of_head {p : Char → Bool} {l : List Char}
    (h : ∀ c, l.head? = some c → p c = false) : l.dropWhile p = l := by
  cases l with
  | nil => rfl
  | cons c cs => rw [List.dropWhile_cons, h c rfl]; simp

theorem head_dropWhile_false {p : Char → Bool} :
    ∀ {l : List Char} {c : Char}, (l.dropWhile p).head? = some c → p c = false := by
  intro l
  induction l with
  | nil => intro c h; simp at h
  | cons a as ih =>
    intro c h
    rw [List.dropWhile_cons] at h
    by_cases hp : p a
    · rw [if_pos hp] at h; exact ih h
    · rw [if_neg hp] at h
      have : a = c := by simpa using h
      rw [← this]
      exact Bool.not_eq_true _ ▸ (by simpa using hp)

theorem dropWhile_suffix_decomp (p : Char → Bool) :
    ∀ l : List Char, ∃ u, l = u ++ l.dropWhile p := by
  intro l
  induction l with
  | nil => exact ⟨[], rfl⟩
  | cons a as ih =>
    by_cases hp : p a
    · obtain ⟨u, hu⟩ := ih
      exact ⟨a :: u, by rw [List.dropWhile_cons, if_pos hp, List.cons_append, ← hu]⟩
    · exact ⟨[], by rw [List.dropWhile_cons, if_neg hp, List.nil_append]⟩

theorem pyStrip_pref (l : List Char) : ∃ w, l.dropWhile pyIsSpace = pyStrip l ++ w := by
  obtain ⟨w, hw⟩ := dropWhile_suffix_decomp pyIsSpace (l.dropWhile pyIsSpace).reverse
  refine ⟨w.reverse, ?_⟩
  have h2 := congrArg List.reverse hw
  simpa [pyStrip] using h2

theorem pyStrip_infix (l : List Char) : ∃ u v, l = u ++ pyStrip l ++ v := by
  obtain ⟨u, hu⟩ := dropWhile_suffix_decomp pyIsSpace l
  obtain ⟨w, hw⟩ := pyStrip_pref l
  refine ⟨u, w, ?_⟩
  conv_lhs => rw [hu, hw]
  rw [List.append_assoc]

theorem pyStrip_head (l : List Char) :
    ∀ c, (pyStrip l).head? = some c → pyIsSpace c = false := by
  intro c hc
  obtain ⟨w, hw⟩ := pyStrip_pref l
  apply head_dropWhile_false (l := l) (p := pyIsSpace)
  rw [hw]
  cases hs : pyStrip l with
  | nil => rw [hs] at hc; simp at hc
  | cons d ds =>
    rw [hs] at hc
    simp at hc
    simp [hc]

theorem pyStrip_getLast (l : List Char) :
    ∀ c, (pyStrip l).getLast? = some c → pyIsSpace c = false := by
  intro c hc
  rw [pyStrip, List.getLast?_reverse] at hc
  exact head_dropWhile_false hc

theorem pyStrip_eq_self {l : List Char}
    (h1 : ∀ c, l.head? = some c → pyIsSpace c = false)
    (h2 : ∀ c, l.getLast? = some c → pyIsSpace c = false) : pyStrip l = l := by
  unfold pyStrip
  rw [dropWhile_eq_self_of_head h1]
  rw [dropWhile_eq_self_of_head (by intro c hc; rw [List.head?_reverse] at hc; exact h2 c hc)]
  exact List.reverse_reverse l

theorem pyStrip_idem (l : List Char) : pyStrip (pyStrip l) = pyStrip l :=
  pyStrip_eq_self (pyStrip_head l) (pyStrip_getLast l)

/- Lemmas about blank-line matches. -/

theorem blankTail_mono : ∀ {v : List Char}, (blankTail v).isSome = true →
    ∀ (u : List Char), (blankTail (v ++ u)).isSome = true := by
  intro v
  induction v with
  | nil => intro h; simp [blankTail] at h
  | cons x xs ih =>
    intro h u
    rw [List.cons_append]
    unfold blankTail at h ⊢
    by_cases hp : pyIsSpace x
    · rw [if_pos hp] at h ⊢
      cases hbt : blankTail xs with
      | some r =>
        have := ih (by rw [hbt]; rfl) u
        cases hbtu : blankTail (xs ++ u) with
        | some r2 => simp
        | none => rw [hbtu] at this; simp at this
      | none =>
        rw [hbt] at h
        have hx : (x == '\n') = true := by
          by_contra hx
          rw [if_neg (by simpa using hx)] at h
          simp at h
        cases hbtu : blankTail (xs ++ u) with
        | some r2 => simp
        | none => rw [if_pos hx]; simp
    · rw [if_neg hp] at h; simp at h

theorem blankTail_append_none {v u : List Char} (h : blankTail (v ++ u) = none) :
    blankTail v = none := by
  cases hv : blankTail v with
  | none => rfl
  | some r =>
    have := blankTail_mono (v := v) (by rw [hv]; rfl) u
    rw [h] at this
    simp at this

theorem blankTail_none_append {v : List Char} (u : List Char)
    (h : blankTail v = none) (hx : ∃ x ∈ v, pyIsSpace x = false) :
    blankTail (v ++ u) = none := by
  induction v with
  | nil => obtain ⟨x, hx1, _⟩ := hx; simp at hx1
  | cons a as ih =>
    rw [List.cons_append]
    unfold blankTail at h ⊢
    by_cases hp : pyIsSpace a
    · rw [if_pos hp] at h ⊢
      cases hbt : blankTail as with
      | some r => rw [hbt] at h; simp at h
      | none =>
        rw [hbt] at h
        have ha : (a == '\n') = false := by
          by_contra ha
          rw [if_pos (by simpa using ha)] at h
          simp at h
        obtain ⟨x, hx1, hx2⟩ := hx
        have hxas : x ∈ as := by
          cases List.mem_cons.mp hx1 with
          | inl heq => rw [heq] at hx2; rw [hx2] at hp; simp at hp
          | inr hm => exact hm
        rw [ih hbt ⟨x, hxas, hx2⟩, ha]
        simp
    · rw [if_neg hp]

theorem blankTail_none_head {t : List Char}
    (h : ∀ c, t.head? = some c → pyIsSpace c = false) : blankTail t = none := by
  cases t with
  | nil => rfl
  | cons c cs => unfold blankTail; rw [h c rfl]; simp

theorem hasBlank_cons (c : Char) (cs : List Char) :
    hasBlank (c :: cs) = ((c == '\n' && (blankTail cs).isSome) || hasBlank cs) := rfl

theorem hasBlank_false_of (p : List Char)
    (h : ∀ u w, p = u ++ '\n' :: w → blankTail w = none) : hasBlank p = false := by
  induction p with
  | nil => rfl
  | cons c cs ih =>
    rw [hasBlank_cons]
    have h2 : hasBlank cs = false :=
      ih (fun u w hw => h (c :: u) w (by rw [hw]; rfl))
    by_cases hc : (c == '\n') = true
    · have hcn : c = '\n' := by simpa using hc
      have : blankTail cs = none := h [] cs (by rw [hcn]; rfl)
      rw [this, h2, hc]
      rfl
    · have hcb : (c == '\n') = false := by simpa using hc
      rw [h2, hcb]
      rfl

theorem hasBlank_decomp {p u w : List Char} (h : hasBlank p = false)
    (hp : p = u ++ '\n' :: w) : blankTail w = none := by
  induction u generalizing p with
  | nil =>
    subst hp
    rw [List.nil_append, hasBlank_cons] at h
    simp at h
    cases hb : blankTail w with
    | none => rfl
    | some r => rw [hb] at h; simp at h
  | cons a u' ih =>
    subst hp
    rw [List.cons_append, hasBlank_cons] at h
    simp at h
    exact ih h.2 rfl

theorem hasBlank_suffix {u v : List Char} (h : hasBlank (u ++ v) = false) :
    hasBlank v = false := by
  induction u with
  | nil => exact h
  | cons a u' ih =>
    rw [List.cons_append, hasBlank_cons] at h
    simp at h
    exact ih h.2

theorem hasBlank_prefix {v u : List Char} (h : hasBlank (v ++ u) = false) :
    hasBlank v = false := by
  apply hasBlank_false_of
  intro a w hw
  have hvw : v ++ u = a ++ '\n' :: (w ++ u) := by
    rw [hw]
    simp [List.append_assoc]
  exact blankTail_append_none (hasBlank_decomp h hvw)

theorem hasBlank_infix {l m a b : List Char} (h : hasBlank l = false)
    (hl : l = a ++ m ++ b) : hasBlank m = false := by
  have h1 : hasBlank (m ++ b) = false := by
    apply hasBlank_suffix (u := a)
    rw [← List.append_assoc, ← hl]
    exact h
  exact hasBlank_prefix h1

/- Unfolding lemmas for the splitting scan. -/

theorem reSplitGo_nil (acc : List Char) : reSplitGo acc [] = [acc.reverse] := by
  simp [reSplitGo]

theorem reSplitGo_cons_match {c : Char} {cs r : List Char} (acc : List Char)
    (hc : (c == '\n') = true) (hbt : blankTail cs = some r) :
    reSplitGo acc (c :: cs) = acc.reverse :: reSplitGo [] r := by
  rw [reSplitGo, if_pos hc]
  split
  · rename_i r2 heq
    rw [hbt] at heq
    cases heq
    rfl
  · rename_i heq
    rw [hbt] at heq
    cases heq

theorem reSplitGo_cons_nomatch {c : Char} {cs : List Char} (acc : List Char)
    (hc : (c == '\n') = true) (hbt : blankTail cs = none) :
    reSplitGo acc (c :: cs) = reSplitGo (c :: acc) cs := by
  rw [reSplitGo, if_pos hc]
  split
  · rename_i r2 heq
    rw [hbt] at heq
    cases heq
  · rfl

theorem reSplitGo_cons_other {c : Char} {cs : List Char} (acc : List Char)
    (hc : (c == '\n') = false) :
    reSplitGo acc (c :: cs) = reSplitGo (c :: acc) cs := by
  rw [reSplitGo, if_neg (by simp [hc])]

/- The pieces of the splitting scan contain no blank-line match. -/

theorem piece_flush {acc rem : List Char} (hJ : Jinv acc rem) :
    hasBlank acc.reverse = false := by
  apply hasBlank_false_of
  intro u w hw
  exact blankTail_append_none (hJ u w hw)

theorem snoc_decomp {X u w : List Char} {a c : Char} (h : X ++ [c] = u ++ a :: w) :
    (∃ w', w = w' ++ [c] ∧ X = u ++ a :: w') ∨ (w = [] ∧ a = c ∧ u = X) := by
  rcases List.eq_nil_or_concat w with hw | ⟨w', b, hw⟩
  · subst hw
    have h2 := List.append_inj' h (by rfl)
    right
    refine ⟨rfl, ?_, h2.1.symm⟩
    have h3 := h2.2
    simp at h3
    exact h3.symm
  · subst hw
    left
    rw [List.concat_eq_append] at h
    have h' : X ++ [c] = (u ++ a :: w') ++ [b] := by
      rw [h]
      simp [List.append_assoc]
    have h2 := List.append_inj' h' (by rfl)
    have hcb : c = b := by
      have h3 := h2.2
      simp at h3
      exact h3
    exact ⟨w', by rw [hcb, List.concat_eq_append], h2.1⟩

theorem getLast?_exists_mem : ∀ {l : List Char}, l ≠ [] →
    ∃ c, l.getLast? = some c ∧ c ∈ l := by
  intro l
  induction l with
  | nil => intro h; exact absurd rfl h
  | cons x t ih =>
    intro _
    cases t with
    | nil => exact ⟨x, rfl, by simp⟩
    | cons y t' =>
      obtain ⟨c, hc, hm⟩ := ih (by simp)
      exact ⟨c, by rw [List.getLast?_cons_cons]; exact hc, by simp [hm]⟩

theorem reSplitGo_pieces_aux : ∀ (N : Nat) (l acc : List Char), l.length ≤ N →
    Jinv acc l → ∀ p ∈ reSplitGo acc l, hasBlank p = false := by
  intro N
  induction N with
  | zero =>
    intro l acc hlen hJ p hp
    have hl : l = [] := List.eq_nil_of_length_eq_zero (Nat.le_zero.mp hlen)
    subst hl
    rw [reSplitGo_nil] at hp
    simp at hp
    rw [hp]
    exact piece_flush hJ
  | succ N ih =>
    intro l acc hlen hJ p hp
    cases l with
    | nil =>
      rw [reSplitGo_nil] at hp
      simp at hp
      rw [hp]
      exact piece_flush hJ
    | cons c cs =>
      have hlcs : cs.length ≤ N := by simpa using hlen
      by_cases hc : (c == '\n') = true
      · cases hbt : blankTail cs with
        | some r =>
          rw [reSplitGo_cons_match acc hc hbt] at hp
          cases List.mem_cons.mp hp with
          | inl hpe => rw [hpe]; exact piece_flush hJ
          | inr hpm =>
            have hr : r.length ≤ N :=
              Nat.le_of_lt (Nat.lt_of_lt_of_le (blankTail_length hbt) hlcs)
            exact ih r [] hr (by intro u w hw; simp at hw) p hpm
        | none =>
          rw [reSplitGo_cons_nomatch acc hc hbt] at hp
          refine ih cs (c :: acc) hlcs ?_ p hp
          intro u w hw
          rw [List.reverse_cons] at hw
          rcases snoc_decomp hw with ⟨w', hww, hX⟩ | ⟨hw0, hac, _⟩
          · have := hJ u w' hX
            rw [hww, List.append_assoc, List.singleton_append]
            exact this
          · rw [hw0, List.nil_append]
            exact hbt
      · rw [reSplitGo_cons_other acc (by simpa using hc)] at hp
        refine ih cs (c :: acc) hlcs ?_ p hp
        intro u w hw
        rw [List.reverse_cons] at hw
        rcases snoc_decomp hw with ⟨w', hww, hX⟩ | ⟨_, hac, _⟩
        · have := hJ u w' hX
          rw [hww, List.append_assoc, List.singleton_append]
          exact this
        · rw [hac] at hc
          simp at hc

theorem reSplitBlank_pieces {l p : List Char} (hp : p ∈ reSplitBlank l) :
    hasBlank p = false :=
  reSplitGo_pieces_aux l.length l [] (Nat.le_refl _)
    (by intro u w hw; simp at hw) p hp

/- Splitting a serialized document recovers its blocks. -/

theorem reSplitGo_noBlank : ∀ (l acc : List Char), hasBlank l = false →
    reSplitGo acc l = [acc.reverse ++ l] := by
  intro l
  induction l with
  | nil => intro acc _; rw [reSplitGo_nil, List.append_nil]
  | cons c cs ih =>
    intro acc h
    rw [hasBlank_cons] at h
    simp at h
    by_cases hc : (c == '\n') = true
    · have hbt : blankTail cs = none := by
        cases hb : blankTail cs with
        | none => rfl
        | some r =>
          have := h.1 (by simpa using hc)
          rw [hb] at this
          simp at this
      rw [reSplitGo_cons_nomatch acc hc hbt, ih (c :: acc) h.2]
      simp
    · rw [reSplitGo_cons_other acc (by simpa using hc), ih (c :: acc) h.2]
      simp

theorem reSplitGo_sep : ∀ (b : List Char), b ≠ [] → hasBlank b = false →
    (∀ c, b.getLast? = some c → pyIsSpace c = false) →
    ∀ (t : List Char), (∀ c, t.head? = some c → pyIsSpace c = false) →
    ∀ acc, reSplitGo acc (b ++ '\n' :: '\n' :: t) = (acc.reverse ++ b) :: reSplitGo [] t := by
  intro b
  induction b with
  | nil => intro h; exact absurd rfl h
  | cons x b' ih =>
    intro _ hb hlast t ht acc
    rw [hasBlank_cons] at hb
    simp at hb
    have hbt2 : blankTail ('\n' :: t) = some t := by
      unfold blankTail
      rw [if_pos (by decide)]
      rw [blankTail_none_head ht]
      simp
    by_cases hb' : b' = []
    · subst hb'
      have hx : pyIsSpace x = false := hlast x rfl
      have hxn : (x == '\n') = false := by
        cases heq : x == '\n'
        · rfl
        · exfalso
          have : x = '\n' := by simpa using heq
          rw [this] at hx
          simp [pyIsSpace] at hx
      rw [List.cons_append, List.nil_append]
      rw [reSplitGo_cons_other acc hxn]
      rw [reSplitGo_cons_match (x :: acc) (by decide) hbt2]
      simp
    · have hlast' : ∀ c, b'.getLast? = some c → pyIsSpace c = false := by
        intro c hc
        apply hlast
        cases b' with
        | nil => exact absurd rfl hb'
        | cons y b'' => rw [List.getLast?_cons_cons]; exact hc
      have hnsb' : ∃ z ∈ b', pyIsSpace z = false := by
        obtain ⟨c, hc, hm⟩ := getLast?_exists_mem hb'
        exact ⟨c, hm, hlast' c hc⟩
      rw [List.cons_append]
      by_cases hx : (x == '\n') = true
      · have hbtb' : blankTail b' = none := by
          cases hbb : blankTail b' with
          | none => rfl
          | some r =>
            have := hb.1 (by simpa using hx)
            rw [hbb] at this
            simp at this
        have hall : blankTail (b' ++ '\n' :: '\n' :: t) = none :=
          blankTail_none_append _ hbtb' hnsb'
        rw [reSplitGo_cons_nomatch acc hx hall]
        rw [ih hb' hb.2 hlast' t ht (x :: acc)]
        simp
      · rw [reSplitGo_cons_other acc (by simpa using hx)]
        rw [ih hb' hb.2 hlast' t ht (x :: acc)]
        simp

/- Lemmas about splitting into lines and joining. -/

theorem pySplitNl_ne_nil (l : List Char) : pySplitNl l ≠ [] := by
  cases l with
  | nil => simp [pySplitNl]
  | cons c cs =>
    unfold pySplitNl
    by_cases hc : (c == '\n') = true
    · rw [if_pos hc]; simp
    · rw [if_neg (by simpa using hc)]
      cases h : pySplitNl cs with
      | nil => simp
      | cons l ls => simp

theorem pyJoin_single (sep x : List Char) : pyJoin sep [x] = x := rfl

theorem pyJoin_cons2 (sep x y : List Char) (t : List (List Char)) :
    pyJoin sep (x :: y :: t) = x ++ sep ++ pyJoin sep (y :: t) := rfl

theorem pyJoin_pySplitNl (l : List Char) : pyJoin (chars "\n") (pySplitNl l) = l := by
  induction l with
  | nil => rfl
  | cons c cs ih =>
    obtain ⟨y, t, hyt⟩ : ∃ y t, pySplitNl cs = y :: t := by
      cases h : pySplitNl cs with
      | nil => exact absurd h (pySplitNl_ne_nil cs)
      | cons y t => exact ⟨y, t, rfl⟩
    rw [hyt] at ih
    unfold pySplitNl
    by_cases hc : (c == '\n') = true
    · rw [if_pos hc, hyt, pyJoin_cons2, ih]
      have : c = '\n' := by simpa using hc
      rw [this]
      rfl
    · rw [if_neg (by simpa using hc), hyt]
      cases t with
      | nil =>
        rw [pyJoin_single] at ih ⊢
        rw [ih]
      | cons z t' =>
        rw [pyJoin_cons2] at ih ⊢
        rw [← ih]
        simp

/- The parse-mode block processor keeps exactly the stripped blocks of at
least 3 lines. -/

theorem processBlock_parse_eq {x y : List Char}
    (h : processBlock (fun t => t) false x = some y) :
    y = pyStrip x ∧ 3 ≤ (pySplitNl (pyStrip x)).length := by
  unfold processBlock at h
  cases hs : pySplitNl (pyStrip x) with
  | nil => rw [hs] at h; simp at h
  | cons i rest =>
    cases rest with
    | nil => rw [hs] at h; simp at h
    | cons ts rest2 =>
      cases rest2 with
      | nil => rw [hs] at h; simp at h
      | cons r0 rest3 =>
        rw [hs] at h
        simp at h
        constructor
        · rw [← h]
          have hj := pyJoin_pySplitNl (pyStrip x)
          rw [hs, pyJoin_cons2, pyJoin_cons2] at hj
          rw [← hj]
          simp only [show chars "\n" = ['\n'] from rfl]
          simp
        · simp

theorem processBlock_parse_good {b : List Char} (h1 : pyStrip b = b)
    (h2 : 3 ≤ (pySplitNl b).length) :
    processBlock (fun t => t) false b = some b := by
  unfold processBlock
  rw [h1]
  cases hs : pySplitNl b with
  | nil => rw [hs] at h2; simp at h2
  | cons i rest =>
    cases rest with
    | nil => rw [hs] at h2; simp at h2
    | cons ts rest2 =>
      cases rest2 with
      | nil => rw [hs] at h2; simp at h2
      | cons r0 rest3 =>
        simp
        have hj := pyJoin_pySplitNl b
        rw [hs, pyJoin_cons2, pyJoin_cons2] at hj
        rw [← hj]
        simp only [show chars "\n" = ['\n'] from rfl]
        simp

/- Every parsed block is good. -/

theorem parseSrt_mem_good {t b : List Char} (hb : b ∈ parseSrt t) : GoodBlock b := by
  unfold parseSrt at hb
  rw [List.mem_filterMap] at hb
  obtain ⟨x, hx, hpx⟩ := hb
  obtain ⟨hby, hlen⟩ := processBlock_parse_eq hpx
  subst hby
  refine ⟨pyStrip_idem x, ?_, ?_, hlen⟩
  · intro hnil
    rw [hnil] at hlen
    simp [pySplitNl] at hlen
  · have hpiece : hasBlank x = false := reSplitBlank_pieces hx
    obtain ⟨u, v, huv⟩ := pyStrip_infix x
    exact hasBlank_infix hpiece huv

theorem goodHead {b : List Char} (hg : GoodBlock b) :
    ∀ c, b.head? = some c → pyIsSpace c = false := by
  intro c hc
  have h := pyStrip_head b
  rw [hg.1] at h
  exact h c hc

theorem goodLast {b : List Char} (hg : GoodBlock b) :
    ∀ c, b.getLast? = some c → pyIsSpace c = false := by
  intro c hc
  have h := pyStrip_getLast b
  rw [hg.1] at h
  exact h c hc

theorem pyJoin_head (sep b : List Char) (L : List (List Char)) (hb : b ≠ []) :
    (pyJoin sep (b :: L)).head? = b.head? := by
  cases L with
  | nil => rfl
  | cons y t =>
    rw [pyJoin_cons2]
    cases b with
    | nil => exact absurd rfl hb
    | cons c cs => simp

theorem getLast?_append_right {a b : List Char} (hb : b ≠ []) :
    (a ++ b).getLast? = b.getLast? := by
  rw [← List.head?_reverse, ← List.head?_reverse, List.reverse_append]
  cases hbr : b.reverse with
  | nil =>
    have := congrArg List.reverse hbr
    simp at this
    exact absurd this hb
  | cons c cs => simp

theorem pyJoin_last (sep : List Char) : ∀ (L : List (List Char)) (b : List Char), b ≠ [] →
    (pyJoin sep (L ++ [b])).getLast? = b.getLast? := by
  intro L
  induction L with
  | nil => intro b _; rfl
  | cons x L' ih =>
    intro b hb
    have hJ : (pyJoin sep (L' ++ [b])).getLast? = b.getLast? := ih b hb
    have hne : pyJoin sep (L' ++ [b]) ≠ [] := by
      intro h0
      rw [h0] at hJ
      obtain ⟨c, hc, _⟩ := getLast?_exists_mem hb
      rw [hc] at hJ
      simp at hJ
    obtain ⟨y, t, hyt⟩ : ∃ y t, L' ++ [b] = y :: t := by
      cases L' with
      | nil => exact ⟨b, [], rfl⟩
      | cons z zs => exact ⟨z, zs ++ [b], rfl⟩
    rw [List.cons_append, hyt, pyJoin_cons2, ← hyt]
    rw [List.append_assoc]
    rw [getLast?_append_right (by intro h0; rw [List.append_eq_nil] at h0; exact hne h0.2)]
    rw [getLast?_append_right hne]
    exact hJ

theorem serialize_strip_fixed {L : List (List Char)} (hg : ∀ b ∈ L, GoodBlock b)
    (hne : L ≠ []) : pyStrip (serializeSrt L) = serializeSrt L := by
  obtain ⟨b, L', hL⟩ : ∃ b L', L = b :: L' := by
    cases L with
    | nil => exact absurd rfl hne
    | cons b L' => exact ⟨b, L', rfl⟩
  subst hL
  have hgb : GoodBlock b := hg b (by simp)
  apply pyStrip_eq_self
  · intro c hc
    unfold serializeSrt at hc
    rw [pyJoin_head _ b L' hgb.2.1] at hc
    exact goodHead hgb c hc
  · intro c hc
    rcases List.eq_nil_or_concat (b :: L') with h0 | ⟨L'', bl, hL2⟩
    · simp at h0
    · have hblm : bl ∈ b :: L' := by rw [hL2]; simp
      have hgbl : GoodBlock bl := hg bl hblm
      unfold serializeSrt at hc
      rw [hL2, List.concat_eq_append, pyJoin_last _ L'' bl hgbl.2.1] at hc
      exact goodLast hgbl c hc

theorem reSplit_serialize : ∀ (L : List (List Char)), (∀ b ∈ L, GoodBlock b) → L ≠ [] →
    reSplitBlank (serializeSrt L) = L := by
  intro L
  induction L with
  | nil => intro _ h; exact absurd rfl h
  | cons b L' ih =>
    intro hg _
    have hgb : GoodBlock b := hg b (by simp)
    cases L' with
    | nil =>
      show reSplitGo [] (pyJoin (chars "\n\n") [b]) = [b]
      rw [pyJoin_single, reSplitGo_noBlank b [] hgb.2.2.1]
      simp
    | cons y L'' =>
      have hgy : GoodBlock y := hg y (by simp)
      show reSplitGo [] (pyJoin (chars "\n\n") (b :: y :: L'')) = b :: y :: L''
      rw [pyJoin_cons2]
      have hsep : b ++ chars "\n\n" ++ pyJoin (chars "\n\n") (y :: L'') =
          b ++ '\n' :: '\n' :: pyJoin (chars "\n\n") (y :: L'') := by
        rw [List.append_assoc]
        rfl
      rw [hsep]
      have hhead : ∀ c, (pyJoin (chars "\n\n") (y :: L'')).head? = some c →
          pyIsSpace c = false := by
        intro c hc
        rw [pyJoin_head _ y L'' hgy.2.1] at hc
        exact goodHead hgy c hc
      rw [reSplitGo_sep b hgb.2.1 hgb.2.2.1 (goodLast hgb) _ hhead []]
      have hih := ih (fun x hx => hg x (by simp [hx])) (by simp)
      unfold reSplitBlank serializeSrt at hih
      rw [hih]
      simp

theorem filterMap_id_of {f : List Char → Option (List Char)} :
    ∀ {L : List (List Char)}, (∀ b ∈ L, f b = some b) → L.filterMap f = L := by
  intro L
  induction L with
  | nil => intro _; rfl
  | cons b L' ih =>
    intro h
    rw [List.filterMap_cons, h b (by simp)]
    rw [ih (fun x hx => h x (by simp [hx]))]

theorem parseSrt_serialize (t : List Char) :
    parseSrt (serializeSrt (parseSrt t)) = parseSrt t := by
  by_cases hB : parseSrt t = []
  · rw [hB]
    show parseSrt (pyJoin (chars "\n\n") []) = []
    show parseSrt [] = []
    unfold parseSrt
    have h0 : pyStrip ([] : List Char) = [] := rfl
    rw [h0]
    unfold reSplitBlank
    rw [reSplitGo_nil]
    have h1 : processBlock (fun t => t) false [] = none := rfl
    simp [List.filterMap_cons, h1]
  · have hg : ∀ b ∈ parseSrt t, GoodBlock b := fun b hb => parseSrt_mem_good hb
    show (reSplitBlank (pyStrip (serializeSrt (parseSrt t)))).filterMap
        (processBlock (fun t => t) false) = parseSrt t
    rw [serialize_strip_fixed hg hB]
    rw [reSplit_serialize (parseSrt t) hg hB]
    exact filterMap_id_of
      (fun b hb => processBlock_parse_good (hg b hb).1 (hg b hb).2.2.2)

/- Helper lemmas for the cleaning claims. -/

theorem pySplitNl_no_newline : ∀ {l : List Char}, '\n' ∉ l → pySplitNl l = [l] := by
  intro l
  induction l with
  | nil => intro _; rfl
  | cons c cs ih =>
    intro hmem
    unfold pySplitNl
    have hc : (c == '\n') = false := by
      cases heq : c == '\n'
      · rfl
      · exfalso
        apply hmem
        have hce : c = '\n' := by simpa using heq
        rw [hce]
        exact List.mem_cons_self _ _
    have hcs : '\n' ∉ cs := fun hm => hmem (List.mem_cons_of_mem _ hm)
    rw [if_neg (by simp [hc]), ih hcs]

theorem pyStrip_no_space {l : List Char} (h : ∀ c ∈ l, pyIsSpace c = false) :
    pyStrip l = l := by
  apply pyStrip_eq_self
  · intro c hc
    cases l with
    | nil => simp at hc
    | cons a as =>
      have : a = c := by simpa using hc
      exact h c (this ▸ List.mem_cons_self a as)
  · intro c hc
    have hne : l ≠ [] := by
      intro h0
      rw [h0] at hc
      simp at hc
    obtain ⟨c', hc', hm⟩ := getLast?_exists_mem hne
    rw [hc] at hc'
    have : c = c' := by simpa using hc'
    exact h c (this ▸ hm)

theorem processBlock_none_of_clean_empty :
    ∀ (tf : List Char → List Char) (b : List Char),
    pyStrip (clean_subtitle_text (blockBody b)) = [] → processBlock tf true b = none := by
  intro tf b h
  unfold processBlock
  cases hs : pySplitNl (pyStrip b) with
  | nil => rfl
  | cons i rest =>
    cases rest with
    | nil => rfl
    | cons ts rest2 =>
      cases rest2 with
      | nil => rfl
      | cons r0 rest3 =>
        have hbody : pyJoin (chars "\n") (r0 :: rest3) = blockBody b := by
          unfold blockBody
          rw [hs]
          rfl
        simp [hbody, h]

theorem processBlock_some_nonempty {b out : List Char}
    (h : processBlock (fun t => t) true b = some out) :
    ∃ i ts txt, out = i ++ '\n' :: (ts ++ '\n' :: txt) ∧ pyStrip txt ≠ [] := by
  unfold processBlock at h
  cases hs : pySplitNl (pyStrip b) with
  | nil => rw [hs] at h; simp at h
  | cons i rest =>
    cases rest with
    | nil => rw [hs] at h; simp at h
    | cons ts rest2 =>
      cases rest2 with
      | nil => rw [hs] at h; simp at h
      | cons r0 rest3 =>
        rw [hs] at h
        simp only [Bool.true_and, if_true] at h
        split at h
        · simp at h
        · rename_i hcond
          simp at h
          refine ⟨i, ts, clean_subtitle_text (pyJoin (chars "\n") (r0 :: rest3)), h.symm, ?_⟩
          intro h0
          rw [h0] at hcond
          simp at hcond

theorem clean_single_upper {t : List Char}
    (hn : '\n' ∉ t)
    (h1 : sub_speaker t = t)
    (h2 : sub_span '(' ')' t = t) (h3 : sub_span '[' ']' t = t)
    (h4 : sub_span '<' '>' t = t) (h5 : sub_span '{' '}' t = t)
    (h6 : pyStrip t ≠ [])
    (h7 : pyStrip t = (pyStrip t).map Char.toUpper)
    (h8 : t.any Char.isAlpha = true) :
    clean_subtitle_text t = [] := by
  unfold clean_subtitle_text clean_after_label
  simp only [h1, h2, h3, h4, h5]
  rw [pySplitNl_no_newline hn]
  have hie : (pyStrip t).isEmpty = false := by
    cases hps : pyStrip t with
    | nil => exact absurd hps h6
    | cons a as => rfl
  have hud : upperDrop t = true := by
    unfold upperDrop
    simp only [hie, h8, ← h7]
    simp
  rw [List.filter_cons]
  rw [hud]
  simp
  rfl

theorem takeWhile_middle {p : Char → Bool} : ∀ (m : List Char), (∀ c ∈ m, p c = true) →
    ∀ {x : Char}, p x = false → ∀ (r : List Char), (m ++ x :: r).takeWhile p = m := by
  intro m
  induction m with
  | nil =>
    intro _ x hx r
    rw [List.nil_append, List.takeWhile_cons, hx]
    rfl
  | cons a m' ih =>
    intro hm x hx r
    rw [List.cons_append, List.takeWhile_cons, hm a (by simp)]
    rw [ih (fun c hc => hm c (by simp [hc])) hx r]
    rfl

/- Helper lemmas for the chunking claim. -/

theorem chunks5000_le : ∀ (l : List Char), ∀ c ∈ chunks5000 l, c.length ≤ 5000 := by
  intro l
  rw [chunks5000]
  split
  · rename_i h
    intro c hc
    simp at hc
    rw [hc]
    exact h
  · rename_i h
    intro c hc
    simp at hc
    rcases hc with hc | hc
    · rw [hc]
      simp
    · exact chunks5000_le (l.drop 5000) c hc
termination_by l => l.length
decreasing_by simp only [List.length_drop]; omega

theorem chunks5000_join : ∀ (l : List Char), (chunks5000 l).flatten = l := by
  intro l
  rw [chunks5000]
  split
  · simp
  · rename_i h
    simp [chunks5000_join (l.drop 5000)]
termination_by l => l.length
decreasing_by simp only [List.length_drop]; omega

/- Helper lemmas for the extraction-order claim. -/

theorem tryMaps_all_fail (env : ToolEnv) (hr : ∀ n, env.raises n = false) :
    ∀ (ms : List Sel) (n : Nat), (∀ j, j < ms.length → okFile env (n + j) = false) →
    tryMaps env n ms = (false, n + ms.length, ms) := by
  intro ms
  induction ms with
  | nil => intro n _; simp [tryMaps]
  | cons m ms' ih =>
    intro n h
    have h0 : okFile env n = false := by simpa using h 0 (by simp)
    have hrest : ∀ j, j < ms'.length → okFile env (n + 1 + j) = false := by
      intro j hj
      have := h (j + 1) (by simpa using Nat.succ_lt_succ hj)
      rwa [show n + (j + 1) = n + 1 + j by omega] at this
    unfold tryMaps
    rw [hr n, h0, ih (n + 1) hrest]
    simp
    omega

theorem tryMaps_first_ok (env : ToolEnv) (hr : ∀ n, env.raises n = false) :
    ∀ (ms : List Sel) (n k : Nat), k < ms.length → okFile env (n + k) = true →
    (∀ j, j < k → okFile env (n + j) = false) →
    tryMaps env n ms = (true, n + k + 1, ms.take (k + 1)) := by
  intro ms
  induction ms with
  | nil => intro n k hk _ _; simp at hk
  | cons m ms' ih =>
    intro n k hk hok hprev
    unfold tryMaps
    rw [hr n]
    cases k with
    | zero =>
      rw [show okFile env n = true from by simpa using hok]
      simp
    | succ k' =>
      have h0 : okFile env n = false := by simpa using hprev 0 (Nat.succ_pos k')
      rw [h0]
      rw [ih (n + 1) k' (by simpa using hk)
        (by rwa [show n + 1 + k' = n + (k' + 1) by omega])
        (by intro j hj
            have := hprev (j + 1) (by omega)
            rwa [show n + (j + 1) = n + 1 + j by omega] at this)]
      simp
      omega

theorem scanStreams_all_fail (env : ToolEnv) (hr : ∀ n, env.raises n = false) :
    ∀ (ss : List StreamRec) (i n : Nat),
    (∀ j, j < (scanSels i ss).length → okFile env (n + j) = false) →
    scanStreams env n i ss = (false, n + (scanSels i ss).length, scanSels i ss) := by
  intro ss
  induction ss with
  | nil => intro i n _; simp [scanStreams, scanSels]
  | cons s ss' ih =>
    intro i n h
    by_cases hm : memIds (pyLower s.language) = true
    · have hsels : scanSels i (s :: ss') = Sel.byIndex (s.idx.getD i) :: scanSels (i + 1) ss' := by
        rw [scanSels, if_pos hm]
      rw [hsels] at h
      have h0 : okFile env n = false := by simpa using h 0 (by simp)
      have hrest : ∀ j, j < (scanSels (i + 1) ss').length → okFile env (n + 1 + j) = false := by
        intro j hj
        have := h (j + 1) (by simpa using Nat.succ_lt_succ hj)
        rwa [show n + (j + 1) = n + 1 + j by omega] at this
      rw [scanStreams, if_pos hm, hr n, h0, ih (i + 1) (n + 1) hrest, hsels]
      simp
      omega
    · have hsels : scanSels i (s :: ss') = scanSels (i + 1) ss' := by
        rw [scanSels, if_neg hm]
      rw [hsels] at h
      rw [scanStreams, if_neg hm, ih (i + 1) n h, hsels]

theorem scanStreams_first_ok (env : ToolEnv) (hr : ∀ n, env.raises n = false) :
    ∀ (ss : List StreamRec) (i n k : Nat), k < (scanSels i ss).length →
    okFile env (n + k) = true → (∀ j, j < k → okFile env (n + j) = false) →
    scanStreams env n i ss = (true, n + k + 1, (scanSels i ss).take (k + 1)) := by
  intro ss
  induction ss with
  | nil => intro i n k hk _ _; simp [scanSels] at hk
  | cons s ss' ih =>
    intro i n k hk hok hprev
    by_cases hm : memIds (pyLower s.language) = true
    · have hsels : scanSels i (s :: ss') = Sel.byIndex (s.idx.getD i) :: scanSels (i + 1) ss' := by
        rw [scanSels, if_pos hm]
      rw [hsels] at hk ⊢
      rw [scanStreams, if_pos hm, hr n]
      cases k with
      | zero =>
        rw [show okFile env n = true from by simpa using hok]
        simp
      | succ k' =>
        have h0 : okFile env n = false := by simpa using hprev 0 (Nat.succ_pos k')
        rw [h0]
        rw [ih (i + 1) (n + 1) k' (by simpa using hk)
          (by rwa [show n + 1 + k' = n + (k' + 1) by omega])
          (by intro j hj
              have := hprev (j + 1) (by omega)
              rwa [show n + (j + 1) = n + 1 + j by omega] at this)]
        simp
        omega
    · have hsels : scanSels i (s :: ss') = scanSels (i + 1) ss' := by
        rw [scanSels, if_neg hm]
      rw [hsels] at hk ⊢
      rw [scanStreams, if_neg hm]
      exact ih (i + 1) n k hk hok hprev

theorem tryMaps_exit (env : ToolEnv) (g : Nat → Nat) :
    ∀ (ms : List Sel) (n : Nat),
    tryMaps { env with exitCode := g } n ms = tryMaps env n ms := by
  intro ms
  induction ms with
  | nil => intro n; rfl
  | cons m ms' ih =>
    intro n
    unfold tryMaps
    rw [ih (n + 1)]
    rfl

theorem scanStreams_exit (env : ToolEnv) (g : Nat → Nat) :
    ∀ (ss : List StreamRec) (n i : Nat),
    scanStreams { env with exitCode := g } n i ss = scanStreams env n i ss := by
  intro ss
  induction ss with
  | nil => intro n i; rfl
  | cons s ss' ih =>
    intro n i
    unfold scanStreams
    rw [ih (n + 1) (i + 1), ih n (i + 1)]
    rfl

theorem dutch_exit_independent (vf od : List Char) (env : ToolEnv) (g : Nat → Nat) :
    check_and_extract_dutch_subtitles vf od { env with exitCode := g } =
      check_and_extract_dutch_subtitles vf od env := by
  unfold check_and_extract_dutch_subtitles
  simp only [tryMaps_exit env g, scanStreams_exit env g]

/- Extra definitions used by the chunking counterexample and witness. -/

/-- A long input for the chunking backend: 5001 copies of a letter. -/
def longA : List Char := List.replicate 5001 'a'

/-- A translation oracle that translates the first 5000-character chunk and
raises on everything else. -/
def trObs : List Char → Option (List Char) :=
  fun c => if c.length == 5000 then some (chars "X") else none

theorem longA_strip : pyStrip longA = longA := by
  apply pyStrip_no_space
  intro c hc
  unfold longA at hc
  rw [List.eq_of_mem_replicate hc]
  rfl

theorem longA_len : longA.length = 5001 := by
  unfold longA
  exact List.length_replicate 5001 'a'

theorem longA_ne_nil : pyStrip longA ≠ [] := by
  rw [longA_strip]
  intro h0
  have h1 := congrArg List.length h0
  rw [longA_len] at h1
  exact absurd h1 (by decide)

theorem chunks_longA : chunks5000 longA = [List.replicate 5000 'a', ['a']] := by
  unfold longA
  rw [chunks5000]
  split
  · rename_i h
    rw [List.length_replicate] at h
    exact absurd h (by decide)
  · rw [List.take_replicate, List.drop_replicate]
    have h1 : min 5000 5001 = 5000 := by decide
    have h2 : 5001 - 5000 = 1 := by decide
    rw [h1, h2, List.replicate_one]
    rw [chunks5000]
    split
    · rfl
    · rename_i h
      exact absurd (by decide : (['a'] : List Char).length ≤ 5000) h

/- The ten claims. -/

/-- Claim C1 (corrected). With cleaning enabled, a subtitle block whose
text body strips to empty after the cleaning rules is dropped (the block
loop emits nothing for it), and an emitted block always carries a body
that was nonempty after cleaning; in particular a cue whose body is a
single all-uppercase line containing a letter and left unchanged by the
label and span removal rules is dropped. The original claim's stronger
particular case, every single all-uppercase line with a letter, is false:
see the counterexample. -/
theorem c1_theorem :
    (∀ (tf : List Char → List Char) (b : List Char),
       pyStrip (clean_subtitle_text (blockBody b)) = [] → processBlock tf true b = none) ∧
    (∀ (b out : List Char), processBlock (fun t => t) true b = some out →
       ∃ i ts txt, out = i ++ '\n' :: (ts ++ '\n' :: txt) ∧ pyStrip txt ≠ []) ∧
    (∀ (tf : List Char → List Char) (b : List Char),
       '\n' ∉ blockBody b →
       sub_speaker (blockBody b) = blockBody b →
       sub_span '(' ')' (blockBody b) = blockBody b →
       sub_span '[' ']' (blockBody b) = blockBody b →
       sub_span '<' '>' (blockBody b) = blockBody b →
       sub_span '{' '}' (blockBody b) = blockBody b →
       pyStrip (blockBody b) ≠ [] →
       pyStrip (blockBody b) = (pyStrip (blockBody b)).map Char.toUpper →
       (blockBody b).any Char.isAlpha = true →
       processBlock tf true b = none) :=
  ⟨processBlock_none_of_clean_empty,
   fun _ _ h => processBlock_some_nonempty h,
   fun tf b hn h1 h2 h3 h4 h5 h6 h7 h8 =>
     processBlock_none_of_clean_empty tf b
       (by rw [clean_single_upper hn h1 h2 h3 h4 h5 h6 h7 h8]; rfl)⟩

/-- Witness for C1: a cue whose body is the plain all-caps line of the
spec scenario is dropped. -/
theorem c1_witness :
    processBlock (fun t => t) true
      (chars "1\n00:00:01,000 --> 00:00:02,000\nALL CAPS LINE") = none :=
  c1_theorem.1 (fun t => t)
    (chars "1\n00:00:01,000 --> 00:00:02,000\nALL CAPS LINE") (by decide)

/-- Counterexample for C1 as stated: the body of this block is one
all-uppercase line containing letters, yet after the label strip removes
the letters the remainder survives cleaning and the cue is emitted, not
dropped. -/
theorem c1_counterexample :
    blockBody (chars "1\n00:00:01,000 --> 00:00:02,000\nAB: !!") = chars "AB: !!" ∧
    pyStrip (chars "AB: !!") = (pyStrip (chars "AB: !!")).map Char.toUpper ∧
    (chars "AB: !!").any Char.isAlpha = true ∧
    '\n' ∉ chars "AB: !!" ∧
    processBlock (fun t => t) true (chars "1\n00:00:01,000 --> 00:00:02,000\nAB: !!") =
      some (chars "1\n00:00:01,000 --> 00:00:02,000\n!!") := by
  decide

/-- Claim C2 (confirmed). The HTTP translation backend is a total function
of the response it observes (it never lets an exception escape), and on a
raised request, a non-200 status, an unparsable body, or a body without
the translatedText field, it returns the original input unchanged. -/
theorem c2_theorem (text : List Char) (r : LibreResp)
    (h : r = LibreResp.raiseExc ∨ ∃ st body, r = LibreResp.resp st body ∧
      (st ≠ 200 ∨ body = none ∨
        ∃ d, body = some d ∧ lookupKey (chars "translatedText") d = none)) :
    (libre_translate r text).1 = text := by
  rcases h with h | ⟨st, body, hr, hf⟩
  · subst h
    by_cases he : (text.isEmpty || (pyStrip text).isEmpty) = true
    · simp [libre_translate, he]
    · simp [libre_translate, he]
  · subst hr
    by_cases he : (text.isEmpty || (pyStrip text).isEmpty) = true
    · simp [libre_translate, he]
    · by_cases hst : (st == 200) = true
      · have h200 : st = 200 := by simpa using hst
        rcases hf with hf | hf | ⟨d, hd, hl⟩
        · exact absurd h200 hf
        · subst hf
          simp [libre_translate, he, hst]
        · subst hd
          simp [libre_translate, he, hst, hl]
      · simp [libre_translate, he, hst]

/-- Witness for C2: an HTTP 500 with unparsable body returns the input. -/
theorem c2_witness :
    (libre_translate (LibreResp.resp 500 none) (chars "Hello")).1 = chars "Hello" :=
  c2_theorem (chars "Hello") (LibreResp.resp 500 none)
    (Or.inr ⟨500, none, rfl, Or.inl (by decide)⟩)

/-- Claim C3 (confirmed). In Dutch mode with a parsable probe result and no
tool exceptions, the chain attempts the five language-tag selectors in the
fixed order followed by the Dutch-tagged stream indices; it stops right
after the first attempt whose output file exists with non-zero size,
returning the output path, and exhausts the whole list otherwise; the exit
codes of the tool never influence the result. -/
theorem c3_theorem (vf od : List Char) (env : ToolEnv) (out : List Char)
    (streams : List StreamRec)
    (hp : env.probe = some out) (hd : has_dutch out = true)
    (hj : env.parsed = some streams) (hr : ∀ n, env.raises n = false) :
    (∀ k, k < (dutch_maps ++ scanSels 0 streams).length → okFile env k = true →
      (∀ j, j < k → okFile env j = false) →
      check_and_extract_dutch_subtitles vf od env =
        (some (os_path_join2 od
           ((os_path_splitext (os_path_basename vf)).1 ++ chars ".nl.srt")),
         (dutch_maps ++ scanSels 0 streams).take (k + 1))) ∧
    ((∀ j, j < (dutch_maps ++ scanSels 0 streams).length → okFile env j = false) →
      check_and_extract_dutch_subtitles vf od env =
        (none, dutch_maps ++ scanSels 0 streams)) ∧
    (∀ g, check_and_extract_dutch_subtitles vf od { env with exitCode := g } =
      check_and_extract_dutch_subtitles vf od env) := by
  have hml : dutch_maps.length = 5 := rfl
  refine ⟨?_, ?_, fun g => dutch_exit_independent vf od env g⟩
  · intro k hk hok hprev
    simp only [check_and_extract_dutch_subtitles, hp, hj]
    rw [if_pos hd]
    by_cases hk5 : k < 5
    · have e1 := tryMaps_first_ok env hr dutch_maps 0 k (by rw [hml]; exact hk5)
        (by rwa [Nat.zero_add]) (by intro j hj2; rw [Nat.zero_add]; exact hprev j hj2)
      rw [List.take_append_of_le_length (by rw [hml]; omega)]
      rw [e1]
      rfl
    · have hmfail : ∀ j, j < dutch_maps.length → okFile env (0 + j) = false := by
        intro j hj2
        rw [Nat.zero_add]
        exact hprev j (by omega)
      have e1 := tryMaps_all_fail env hr dutch_maps 0 hmfail
      rw [List.length_append, hml] at hk
      have e2 := scanStreams_first_ok env hr streams 0 5 (k - 5) (by omega)
        (by rwa [show 5 + (k - 5) = k by omega])
        (by intro j hj2
            exact hprev (5 + j) (by omega))
      have ht : (dutch_maps ++ scanSels 0 streams).take (k + 1) =
          dutch_maps ++ (scanSels 0 streams).take (k - 5 + 1) := by
        rw [show k + 1 = dutch_maps.length + (k - 5 + 1) by rw [hml]; omega]
        exact List.take_append (k - 5 + 1)
      rw [ht, e1]
      simp [e2, hml]
  · intro hfail
    simp only [check_and_extract_dutch_subtitles, hp, hj]
    rw [if_pos hd]
    rw [List.length_append, hml] at hfail
    have hmfail : ∀ j, j < dutch_maps.length → okFile env (0 + j) = false := by
      intro j hj2
      rw [Nat.zero_add]
      exact hfail j (by omega)
    have e1 := tryMaps_all_fail env hr dutch_maps 0 hmfail
    have e2 := scanStreams_all_fail env hr streams 0 5
      (by intro j hj2; exact hfail (5 + j) (by omega))
    rw [e1]
    simp [e2, hml]

/-- Witness for C3: with no Dutch stream map producing a file and no
streams to scan, the whole selector list is attempted and the result is
none. -/
theorem c3_witness :
    check_and_extract_dutch_subtitles (chars "a.mkv") (chars "/tmp")
      { probe := some (chars "nld"), parsed := some [], raises := fun _ => false,
        fexists := fun _ => false, fsize := fun _ => 0, exitCode := fun _ => 0 } =
      (none, dutch_maps ++ scanSels 0 []) :=
  (c3_theorem (chars "a.mkv") (chars "/tmp")
    { probe := some (chars "nld"), parsed := some [], raises := fun _ => false,
      fexists := fun _ => false, fsize := fun _ => 0, exitCode := fun _ => 0 }
    (chars "nld") [] rfl (by decide) rfl (fun _ => rfl)).2.1 (fun _ _ => rfl)

/-- Claim C4 (corrected). For text longer than 5000 characters the
library-fallback backend splits it into sequential chunks of at most 5000
characters whose concatenation is the input, translates them in order and
joins the results with one space when every chunk translation succeeds;
but when any chunk translation fails, the whole input text is returned
unchanged — the failure is not confined to that chunk, because the
exception handler wraps the entire chunk loop. -/
theorem c4_theorem (tr : List Char → Option (List Char)) (text : List Char)
    (hlen : 5000 < text.length) (hs : pyStrip text ≠ []) :
    (∀ c ∈ chunks5000 text, c.length ≤ 5000) ∧
    (chunks5000 text).flatten = text ∧
    (∀ ts n, trAll tr (chunks5000 text) = (some ts, n) →
       google_translate tr text = (pyJoin (chars " ") ts, n)) ∧
    ((trAll tr (chunks5000 text)).1 = none → (google_translate tr text).1 = text) := by
  have h1 : (text.isEmpty || (pyStrip text).isEmpty) = false := by
    have hte : text.isEmpty = false := by
      cases htext : text with
      | nil => rw [htext] at hlen; simp at hlen
      | cons a as => rfl
    have hse : (pyStrip text).isEmpty = false := by
      cases hps : pyStrip text with
      | nil => exact absurd hps hs
      | cons b bs => rfl
    rw [hte, hse]
    rfl
  refine ⟨chunks5000_le text, chunks5000_join text, ?_, ?_⟩
  · intro ts n htr
    unfold google_translate
    rw [if_neg (by rw [h1]; simp), if_pos hlen, htr]
  · intro hnone
    cases htr : trAll tr (chunks5000 text) with
    | mk a n =>
      rw [htr] at hnone
      simp at hnone
      subst hnone
      unfold google_translate
      rw [if_neg (by rw [h1]; simp), if_pos hlen, htr]

/-- Witness for C4: with an always-succeeding oracle the hypotheses hold
for the 5001-character input and the chunk shape facts follow. -/
theorem c4_witness :
    (∀ c ∈ chunks5000 longA, c.length ≤ 5000) ∧ (chunks5000 longA).flatten = longA :=
  ⟨(c4_theorem (fun c => some c) longA (by rw [longA_len]; omega) longA_ne_nil).1,
   (c4_theorem (fun c => some c) longA (by rw [longA_len]; omega) longA_ne_nil).2.1⟩

/-- Counterexample for C4 as stated: the first chunk of this 5001-character
input translates to X and the second chunk fails, yet the result is the
whole original input, not the claimed mixed output with only the failing
chunk degraded. -/
theorem c4_counterexample :
    (google_translate trObs longA).1 = longA ∧
    (google_translate trObs longA).1 ≠ chars "X" ++ ' ' :: ['a'] := by
  have htr1 : trObs (List.replicate 5000 'a') = some (chars "X") := by
    unfold trObs
    rw [if_pos (by rw [List.length_replicate]; exact beq_self_eq_true 5000)]
  have htr2 : trObs ['a'] = none := by decide
  have htrAll : trAll trObs (chunks5000 longA) = (none, 2) := by
    rw [chunks_longA]
    unfold trAll
    rw [htr1]
    unfold trAll
    rw [htr2]
    rfl
  have hg : (google_translate trObs longA).1 = longA := by
    unfold google_translate
    rw [if_neg ?hne, if_pos ?hlen, htrAll]
    case hne =>
      rw [show longA.isEmpty = false from rfl]
      cases hps : pyStrip longA with
      | nil => exact absurd hps longA_ne_nil
      | cons b bs => simp
    case hlen => rw [longA_len]; omega
  refine ⟨hg, ?_⟩
  rw [hg]
  intro h0
  have hl0 := congrArg List.length h0
  rw [longA_len] at hl0
  exact absurd hl0 (by decide)

/-- Claim C5 (corrected). The cleaner strips a leading all-caps speaker
label only when it matches one uppercase letter followed by at least one
more uppercase letter, whitespace or period and then a colon, and only at
the start of the whole cue body, not at the start of every line; a
single-uppercase-letter label such as A: is not stripped and labels
opening later lines are kept. -/
theorem c5_theorem (u : Char) (m r : List Char)
    (h1 : u.isUpper = true) (h2 : m ≠ []) (h3 : ∀ c ∈ m, labelChar c = true) :
    sub_speaker (u :: (m ++ ':' :: r)) = r ∧
    clean_subtitle_text (u :: (m ++ ':' :: r)) = clean_after_label r := by
  have hcol : labelChar ':' = false := by decide
  have htw : (m ++ ':' :: r).takeWhile labelChar = m := takeWhile_middle m h3 hcol r
  have hme : m.isEmpty = false := by
    cases m with
    | nil => exact absurd rfl h2
    | cons a as => rfl
  have hsub : sub_speaker (u :: (m ++ ':' :: r)) = r := by
    simp only [sub_speaker]
    rw [if_pos h1]
    simp only [htw, hme, List.drop_left]
    rfl
  exact ⟨hsub, by unfold clean_subtitle_text; rw [hsub]⟩

/-- Witness for C5: the label of the spec scenario is stripped. -/
theorem c5_witness :
    sub_speaker ('J' :: (chars "OHN" ++ ':' :: chars " hi")) = chars " hi" ∧
    clean_subtitle_text ('J' :: (chars "OHN" ++ ':' :: chars " hi")) =
      clean_after_label (chars " hi") :=
  c5_theorem 'J' (chars "OHN") (chars " hi") (by decide) (by decide) (by decide)

/-- Counterexample for C5 as stated: a single-uppercase-letter label is
not stripped, and a label at the start of the second line of a multi-line
body is not stripped either. -/
theorem c5_counterexample :
    sub_speaker (chars "A: hi") = chars "A: hi" ∧
    clean_subtitle_text (chars "A: hi") = chars "A: hi" ∧
    sub_speaker (chars "ok\nAB: hi") = chars "ok\nAB: hi" ∧
    clean_subtitle_text (chars "ok\nAB: hi") = chars "ok\nAB: hi" := by
  decide

/-- Claim C6 (confirmed). Serializing and re-parsing a subtitle document is
idempotent after the first parse, where parsing splits at blank-line
boundaries and keeps only blocks of at least 3 lines, and serializing
joins blocks with one blank line. -/
theorem c6_theorem (t : List Char) :
    serializeSrt (parseSrt (serializeSrt (parseSrt t))) = serializeSrt (parseSrt t) :=
  congrArg serializeSrt (parseSrt_serialize t)

/-- Claim C7 (confirmed). When the sibling Dutch subtitle file exists and
force is off, the per-file orchestrator skips the file with zero tool
invocations; with force on, the existing-file check always reports absent
and the downstream pipeline runs. -/
theorem c7_theorem :
    (∀ (fsExists : List Char → Bool) (vf : List Char) (ds : Outcome × Nat),
       fsExists (nlSrtPath vf) = true →
       mainFileStep fsExists false vf ds = (Outcome.alreadySatisfied, 0)) ∧
    (∀ (fsExists : List Char → Bool) (vf : List Char),
       check_existing_nl_subtitle fsExists vf true = false) ∧
    (∀ (fsExists : List Char → Bool) (vf : List Char) (ds : Outcome × Nat),
       mainFileStep fsExists true vf ds = ds) := by
  refine ⟨?_, fun _ _ => rfl, fun fs vf ds => rfl⟩
  intro fs vf ds h
  unfold nlSrtPath at h
  simp [mainFileStep, check_existing_nl_subtitle, h]

/-- Witness for C7: a media file with its .nl.srt sibling present is
skipped as already satisfied. -/
theorem c7_witness :
    mainFileStep (fun p => p == chars "movie.nl.srt") false (chars "movie.mkv")
      (Outcome.translatedOut, 7) = (Outcome.alreadySatisfied, 0) :=
  c7_theorem.1 (fun p => p == chars "movie.nl.srt") (chars "movie.mkv")
    (Outcome.translatedOut, 7) (by decide)

/-- Claim C8 (confirmed). A probe timeout never escapes: the Dutch-mode
extractor returns the no-subtitles result with no attempts, and the
fallback extractor with a timed-out probe behaves exactly as it does with
a probe report that mentions no ass or English streams. -/
theorem c8_theorem (vf od s : List Char) (env : ToolEnv)
    (h1 : strContains (pyLower s) (chars "ass") = false)
    (h2 : strContains (pyLower s) (chars "eng") = false)
    (h3 : strContains (pyLower s) (chars "english") = false) :
    check_and_extract_dutch_subtitles vf od { env with probe := none } = (none, []) ∧
    extract_subtitles vf od { env with probe := some s } =
      extract_subtitles vf od { env with probe := none } := by
  constructor
  · rfl
  · have e2 : strContains (pyLower ([] : List Char)) (chars "eng") = false := rfl
    have e3 : strContains (pyLower ([] : List Char)) (chars "english") = false := rfl
    simp [extract_subtitles, okFile, h1, h2, h3, e2, e3]

/-- Witness for C8: a concrete probe stdout with no stream hints gives the
same extraction behavior as a timed-out probe, and the Dutch extractor
returns none on timeout. -/
theorem c8_witness :
    check_and_extract_dutch_subtitles (chars "a.mkv") (chars "/t")
      { probe := none, parsed := none, raises := fun _ => false,
        fexists := fun _ => false, fsize := fun _ => 0, exitCode := fun _ => 0 } =
      (none, []) ∧
    extract_subtitles (chars "a.mkv") (chars "/t")
      { probe := some (chars "no streams"), parsed := none, raises := fun _ => false,
        fexists := fun _ => false, fsize := fun _ => 0, exitCode := fun _ => 0 } =
      extract_subtitles (chars "a.mkv") (chars "/t")
      { probe := none, parsed := none, raises := fun _ => false,
        fexists := fun _ => false, fsize := fun _ => 0, exitCode := fun _ => 0 } :=
  c8_theorem (chars "a.mkv") (chars "/t") (chars "no streams")
    { probe := none, parsed := none, raises := fun _ => false,
      fexists := fun _ => false, fsize := fun _ => 0, exitCode := fun _ => 0 }
    (by decide) (by decide) (by decide)

/-- Claim C9 (confirmed). The spec scenario cue is cleaned exactly: the
speaker label, parenthesized span and bracketed span are removed, the
index and timing lines are unchanged, and the body is trimmed. -/
theorem c9_theorem :
    clean_subtitle_text (chars "JOHN: (laughs) Hello [subtitle]") = chars "Hello" ∧
    processBlock (fun t => t) true
        (chars "1\n00:00:01,000 --> 00:00:02,000\nJOHN: (laughs) Hello [subtitle]") =
      some (chars "1\n00:00:01,000 --> 00:00:02,000\nHello") := by
  decide

/-- Claim C10 (confirmed). Both translation backends return empty or
whitespace-only input unchanged and make no translation request for it. -/
theorem c10_theorem (text : List Char) (h : text = [] ∨ pyStrip text = []) :
    (∀ r, libre_translate r text = (text, 0)) ∧
    (∀ tr, google_translate tr text = (text, 0)) := by
  have hg : (text.isEmpty || (pyStrip text).isEmpty) = true := by
    rcases h with h | h
    · rw [h]; rfl
    · rw [h]; simp
  constructor
  · intro r
    unfold libre_translate
    rw [if_pos hg]
  · intro tr
    unfold google_translate
    rw [if_pos hg]

/-- Witness for C10: whitespace-only input is returned with zero calls by
both backends. -/
theorem c10_witness :
    libre_translate LibreResp.raiseExc (chars " \n ") = (chars " \n ", 0) ∧
    google_translate (fun _ => none) (chars " \n ") = (chars " \n ", 0) :=
  ⟨(c10_theorem (chars " \n ") (Or.inr (by decide))).1 LibreResp.raiseExc,
   (c10_theorem (chars " \n ") (Or.inr (by decide))).2 (fun _ => none)⟩

end Subs
